import Mathlib

/-!
Verification of the request-deduplication engine (`RequestDeduplicator` in
`src/request/deduplicator.ts`).

The deduplicator is single-threaded JavaScript: every public call runs a
synchronous prefix to completion (key generation, guard checks, table reads
and writes), and the settlement handlers attached to the launched promise
(`then`/`catch`/`finally`) run later, when the caller-supplied operation
settles.  We embed the state (the two `Map`s, the cleanup timer handle and
the configured `requestTimeout`) as a structure, each synchronous prefix as
a pure state transformer, and each settlement handler as a separate state
transformer.  Promise identity is modelled by a ghost counter `nextId`: the
promise created by a launching call gets a fresh id, and callers that attach
to an in-flight entry receive the same id (hence the same eventual outcome).

Request bodies (`data`) are embedded as JSON trees (`JsonValue`), with a
separate constructor of `JsData` for values on which serialization throws
(cyclic structures and the like), carrying the `String(data)` coercion that
the `catch` fallback of `generateKey` produces.
-/

set_option maxHeartbeats 1000000

namespace RequestDedup

/-- JSON-like value, the shape of serializable request `data`.  Numbers are
restricted to integers in the embedding. -/
inductive JsonValue where
  | null : JsonValue
  | bool (b : Bool) : JsonValue
  | num (n : Int) : JsonValue
  | str (s : String) : JsonValue
  | arr (xs : List JsonValue) : JsonValue
  | obj (fs : List (String × JsonValue)) : JsonValue

/-- A request `data` value: either an acyclic JSON tree (on which
`sortObjectKeys`/`JSON.stringify` succeed), or a value on which
serialization throws (for example a cyclic structure), carrying the string
`String(data)` that the fallback branch of `generateKey` produces. -/
inductive JsData where
  | json (v : JsonValue) : JsData
  | unserializable (repr : String) : JsData

/-- Lexicographic strict comparison of character lists (the default
`Array.prototype.sort` string comparison). -/
def charsLt : List Char → List Char → Bool
  | [], [] => false
  | [], _ :: _ => true
  | _ :: _, [] => false
  | a :: as, b :: bs =>
    decide (a.toNat < b.toNat) || (decide (a.toNat = b.toNat) && charsLt as bs)

theorem charsLt_trans : ∀ (a b c : List Char),
    charsLt a b = true → charsLt b c = true → charsLt a c = true := by
  intro a
  induction a with
  | nil =>
    intro b c hab hbc
    cases b with
    | nil => simp [charsLt] at hab
    | cons y ys =>
      cases c with
      | nil => simp [charsLt] at hbc
      | cons z zs => simp [charsLt]
  | cons x xs ih =>
    intro b c hab hbc
    cases b with
    | nil => simp [charsLt] at hab
    | cons y ys =>
      cases c with
      | nil => simp [charsLt] at hbc
      | cons z zs =>
        simp only [charsLt, Bool.or_eq_true, Bool.and_eq_true,
          decide_eq_true_eq] at hab hbc ⊢
        rcases hab with h1 | ⟨h1, h1'⟩ <;> rcases hbc with h2 | ⟨h2, h2'⟩
        · exact Or.inl (h1.trans h2)
        · exact Or.inl (h2 ▸ h1)
        · exact Or.inl (h1 ▸ h2)
        · exact Or.inr ⟨h1.trans h2, ih ys zs h1' h2'⟩

theorem charsLt_asymm : ∀ (a b : List Char),
    charsLt a b = true → charsLt b a = false := by
  intro a
  induction a with
  | nil =>
    intro b hab
    cases b with
    | nil => simp [charsLt] at hab
    | cons y ys => simp [charsLt]
  | cons x xs ih =>
    intro b hab
    cases b with
    | nil => simp [charsLt] at hab
    | cons y ys =>
      simp only [charsLt, Bool.or_eq_true, Bool.and_eq_true,
        decide_eq_true_eq] at hab
      simp only [charsLt, Bool.or_eq_false_iff, Bool.and_eq_false_iff,
        decide_eq_false_iff_not]
      rcases hab with h1 | ⟨h1, h1'⟩
      · exact ⟨by omega, Or.inl (by omega)⟩
      · exact ⟨by omega, Or.inr (ih ys h1')⟩

theorem charsLt_eq_of_not_lt : ∀ (a b : List Char),
    charsLt a b = false → charsLt b a = false → a = b := by
  intro a
  induction a with
  | nil =>
    intro b hab _
    cases b with
    | nil => rfl
    | cons y ys => simp [charsLt] at hab
  | cons x xs ih =>
    intro b hab hba
    cases b with
    | nil => simp [charsLt] at hba
    | cons y ys =>
      simp only [charsLt, Bool.or_eq_false_iff, Bool.and_eq_false_iff,
        decide_eq_false_iff_not] at hab hba
      obtain ⟨h1, h2⟩ := hab
      obtain ⟨h3, h4⟩ := hba
      have hxy : x.toNat = y.toNat := by omega
      have hchar : x = y := by
        rw [← Char.ofNat_toNat x, ← Char.ofNat_toNat y, hxy]
      rcases h2 with h2 | h2
      · omega
      · rcases h4 with h4 | h4
        · omega
        · rw [hchar, ih ys h2 h4]

/-- Key ordering used by `Object.keys(record).sort()`: lexicographic
comparison of the field names. -/
def keyLe (p q : String × JsonValue) : Prop :=
  charsLt p.1.data q.1.data = true ∨ p.1 = q.1

/-- Strict version of `keyLe`, used to identify sorted field lists with
pairwise-distinct keys. -/
def keyLt (p q : String × JsonValue) : Prop :=
  charsLt p.1.data q.1.data = true

instance : DecidableRel keyLe := fun p q =>
  inferInstanceAs (Decidable (charsLt p.1.data q.1.data = true ∨ p.1 = q.1))

instance : IsTotal (String × JsonValue) keyLe := by
  constructor
  intro a b
  cases hab : charsLt a.1.data b.1.data
  · cases hba : charsLt b.1.data a.1.data
    · have : a.1.data = b.1.data := charsLt_eq_of_not_lt _ _ hab hba
      exact Or.inl (Or.inr (String.ext this))
    · exact Or.inr (Or.inl hba)
  · exact Or.inl (Or.inl hab)

instance : IsTrans (String × JsonValue) keyLe := by
  constructor
  intro a b c hab hbc
  rcases hab with hab | hab <;> rcases hbc with hbc | hbc
  · exact Or.inl (charsLt_trans _ _ _ hab hbc)
  · exact Or.inl (hbc ▸ hab)
  · exact Or.inl (hab ▸ hbc)
  · exact Or.inr (hab.trans hbc)

instance : IsAntisymm (String × JsonValue) keyLt :=
  ⟨fun _ _ h₁ h₂ => by
    have := charsLt_asymm _ _ h₁
    rw [keyLt] at h₂
    rw [h₂] at this
    exact absurd this (by simp)⟩

mutual

/-- `RequestDeduplicator.sortObjectKeys`: recursively sorts object keys
(`Object.keys(record).sort()`), maps over array elements, and returns
primitives unchanged.  Recursing into the values and sorting the field list
commute, since sorting only inspects the keys. -/
def sortObjectKeys : JsonValue → JsonValue
  | .null => .null
  | .bool b => .bool b
  | .num n => .num n
  | .str s => .str s
  | .arr xs => .arr (sortArr xs)
  | .obj fs => .obj (List.insertionSort keyLe (sortFields fs))

/-- Recursion of `sortObjectKeys` through an array (`obj.map(...)`). -/
def sortArr : List JsonValue → List JsonValue
  | [] => []
  | x :: xs => sortObjectKeys x :: sortArr xs

/-- Recursion of `sortObjectKeys` through the values of an object's fields. -/
def sortFields : List (String × JsonValue) → List (String × JsonValue)
  | [] => []
  | (k, v) :: fs => (k, sortObjectKeys v) :: sortFields fs

end

/-- Lower-case hexadecimal digit, for `\u00XX` escapes. -/
def hexDigit (n : Nat) : Char :=
  if n < 10 then Char.ofNat (48 + n) else Char.ofNat (87 + n)

/-- JSON string escaping as performed by `JSON.stringify`. -/
def escapeChar (c : Char) : String :=
  if c = '"' then "\\\""
  else if c = '\\' then "\\\\"
  else if c = '\n' then "\\n"
  else if c = '\r' then "\\r"
  else if c = '\t' then "\\t"
  else if c.toNat = 8 then "\\b"
  else if c.toNat = 12 then "\\f"
  else if c.toNat < 32 then
    "\\u00" ++ String.singleton (hexDigit (c.toNat / 16)) ++
      String.singleton (hexDigit (c.toNat % 16))
  else String.singleton c

/-- JSON string escaping, lifted to strings. -/
def escapeStr (s : String) : String := String.join (s.toList.map escapeChar)

mutual

/-- `JSON.stringify` on JSON trees. -/
def stringify : JsonValue → String
  | .null => "null"
  | .bool b => if b then "true" else "false"
  | .num n => toString n
  | .str s => "\"" ++ escapeStr s ++ "\""
  | .arr xs => "[" ++ stringifyElems xs ++ "]"
  | .obj fs => "\x7b" ++ stringifyFields fs ++ "\x7d"

/-- Comma-separated serialization of array elements. -/
def stringifyElems : List JsonValue → String
  | [] => ""
  | [x] => stringify x
  | x :: y :: xs => stringify x ++ "," ++ stringifyElems (y :: xs)

/-- Comma-separated serialization of object fields. -/
def stringifyFields : List (String × JsonValue) → String
  | [] => ""
  | [(k, v)] => "\"" ++ escapeStr k ++ "\":" ++ stringify v
  | (k, v) :: f :: fs =>
    "\"" ++ escapeStr k ++ "\":" ++ stringify v ++ "," ++ stringifyFields (f :: fs)

end

/-- The `try` block of `generateKey`: canonical serialization of `data`.
It succeeds exactly on acyclic JSON trees; on an unserializable value
(`JSON.stringify`/`sortObjectKeys` throwing) it fails. -/
def serializeData : JsData → Option String
  | .json v => some (stringify (sortObjectKeys v))
  | .unserializable _ => none

/-- The `catch` fallback of `generateKey`: best-effort `String(data)`
coercion of the raw value.  Only ever reached for unserializable data. -/
def coerceData : JsData → String
  | .json v => stringify v
  | .unserializable r => r

/-- `method.toUpperCase()` (ASCII range, which covers HTTP method names). -/
def upperCase (s : String) : String :=
  String.mk (s.data.map Char.toUpper)

/-- `RequestDeduplicator.generateKey(method, url, data)`:
`METHOD:URL:dataKey`, where the data key is empty for `undefined` data,
the canonical serialization when it succeeds, and the string coercion
fallback when serialization throws. -/
def generateKey (method url : String) (data : Option JsData) : String :=
  let dataKey :=
    match data with
    | none => ""
    | some d =>
      match serializeData d with
      | some s => s
      | none => coerceData d
  upperCase method ++ ":" ++ url ++ ":" ++ dataKey

/-! ## Deduplicator state and operations -/

/-- A map lookup (`Map.get`), on the association-list embedding of a JS
`Map` keyed by strings. -/
def mapGet {α : Type} : List (String × α) → String → Option α
  | [], _ => none
  | (k', v) :: rest, k => if k' = k then some v else mapGet rest k

/-- `Map.delete`: removes the binding for a key. -/
def mapDelete {α : Type} (m : List (String × α)) (k : String) : List (String × α) :=
  m.filter (fun p => decide (p.1 ≠ k))

/-- `Map.set`: replaces or adds the binding for a key. -/
def mapSet {α : Type} (m : List (String × α)) (k : String) (v : α) : List (String × α) :=
  (k, v) :: mapDelete m k

/-- A Pending Entry (`interface PendingEntry`): the shared promise —
represented by its ghost id — and the registration timestamp. -/
structure PendingEntry where
  promiseId : Nat
  startTime : Nat
deriving DecidableEq

/-- The private state of a `RequestDeduplicator` instance: the `pending`
and `completed` tables, the auto-cleanup timer handle and the configured
`requestTimeout`, plus the ghost promise-id counter. -/
structure DedupState where
  pending : List (String × PendingEntry)
  completed : List (String × Nat)
  cleanupIntervalId : Option Nat
  requestTimeout : Nat
  nextId : Nat
deriving DecidableEq

/-- The constructor: empty tables, no timer,
`requestTimeout = options?.requestTimeout ?? 30000`. -/
def mkDeduplicator (options : Option Nat) : DedupState :=
  { pending := [], completed := [], cleanupIntervalId := none,
    requestTimeout := options.getD 30000, nextId := 0 }

/-- Result of the synchronous prefix of `deduplicate`: either the caller
attached to an existing Pending Entry's promise, or a fresh operation was
invoked and registered. -/
inductive DedupResult where
  | attached (pid : Nat) : DedupResult
  | launched (pid : Nat) : DedupResult
deriving DecidableEq

/-- Synchronous prefix of `RequestDeduplicator.deduplicate(key, requestFn)`:
return the existing Pending Entry's promise if present, otherwise invoke
`requestFn` and register a fresh Pending Entry at the current time. -/
def deduplicate (st : DedupState) (key : String) (now : Nat) : DedupResult × DedupState :=
  match mapGet st.pending key with
  | some e => (.attached e.promiseId, st)
  | none =>
    (.launched st.nextId,
      { st with pending := mapSet st.pending key ⟨st.nextId, now⟩,
                nextId := st.nextId + 1 })

/-- The `.finally` handler a `deduplicate` launch attaches to its promise:
on settlement (success or failure) the Pending Entry for the key is removed
unconditionally. -/
def settleDedup (st : DedupState) (key : String) : DedupState :=
  { st with pending := mapDelete st.pending key }

/-- The two `reason`s of `DuplicateRequestError`. -/
inductive RejectReason where
  | in_progress : RejectReason
  | recently_completed : RejectReason
deriving DecidableEq

/-- The closure state captured by the `.then`/`.catch` handlers that
`execute` attaches to a launched promise: the computed key and the
launching call's `blockAfterComplete`. -/
structure LaunchCtx where
  key : String
  blockAfterComplete : Option Nat
deriving DecidableEq

/-- Result of the synchronous prefix of `execute`: rejection with a
`DuplicateRequestError`, attachment to an in-flight promise, or a fresh
launch (carrying the captured handler closure). -/
inductive ExecResult where
  | attached (pid : Nat) : ExecResult
  | launched (pid : Nat) (ctx : LaunchCtx) : ExecResult
  | rejected (r : RejectReason) : ExecResult
deriving DecidableEq

/-- The configuration record accepted by `execute` (`ExecuteOptions`). -/
structure ExecuteOptions where
  method : String
  url : String
  data : Option JsData
  blockAfterComplete : Option Nat

/-- The key `execute` computes for its options. -/
def optKey (opts : ExecuteOptions) : String :=
  generateKey opts.method opts.url opts.data

/-- Step 1 of `execute`: the recently-completed guard
`options.blockAfterComplete && options.blockAfterComplete > 0 &&
completedTime && now - completedTime < options.blockAfterComplete`
(JS truthiness: an absent or zero duration, and a zero completion
timestamp, are falsy). -/
def recentlyCompletedGuard (st : DedupState) (key : String) (now : Nat)
    (block : Option Nat) : Bool :=
  match block with
  | none => false
  | some b =>
    decide (0 < b) &&
      match mapGet st.completed key with
      | some t => decide (t ≠ 0) && decide (now - t < b)
      | none => false

/-- Synchronous prefix of `RequestDeduplicator.execute(options, requestFn)`:
reject if the key recently completed, else attach to an in-flight Pending
Entry, else invoke `requestFn` and register a fresh Pending Entry. -/
def execute (st : DedupState) (opts : ExecuteOptions) (now : Nat) :
    ExecResult × DedupState :=
  if recentlyCompletedGuard st (optKey opts) now opts.blockAfterComplete then
    (.rejected .recently_completed, st)
  else
    match mapGet st.pending (optKey opts) with
    | some e => (.attached e.promiseId, st)
    | none =>
      (.launched st.nextId ⟨optKey opts, opts.blockAfterComplete⟩,
        { st with pending := mapSet st.pending (optKey opts) ⟨st.nextId, now⟩,
                  nextId := st.nextId + 1 })

/-- Truthiness-and-positivity of `blockAfterComplete`
(`options.blockAfterComplete && options.blockAfterComplete > 0`). -/
def blockPositive : Option Nat → Bool
  | some b => decide (0 < b)
  | none => false

/-- The `.then` handler of an `execute` launch: remove the Pending Entry;
if the launching call's `blockAfterComplete` was positive, record the
completion timestamp `Date.now()`. -/
def settleSuccess (st : DedupState) (ctx : LaunchCtx) (t : Nat) : DedupState :=
  let st' := { st with pending := mapDelete st.pending ctx.key }
  if blockPositive ctx.blockAfterComplete then
    { st' with completed := mapSet st'.completed ctx.key t }
  else st'

/-- The `.catch` handler of an `execute` launch: remove the Pending Entry
and rethrow; the completed table is untouched. -/
def settleFailure (st : DedupState) (ctx : LaunchCtx) : DedupState :=
  { st with pending := mapDelete st.pending ctx.key }

/-- Settlement outcome of a promise: resolution value or rejection value. -/
inductive Outcome (ε α : Type) where
  | ok (a : α) : Outcome ε α
  | err (e : ε) : Outcome ε α
deriving DecidableEq

/-- Settlement of an `execute`-launched promise, as observed by every
caller holding it: `.then` passes the result through after bookkeeping,
`.catch` rethrows the original failure after bookkeeping. -/
def execSettle {ε α : Type} (st : DedupState) (ctx : LaunchCtx)
    (o : Outcome ε α) (t : Nat) : Outcome ε α × DedupState :=
  match o with
  | .ok a => (.ok a, settleSuccess st ctx t)
  | .err e => (.err e, settleFailure st ctx)

/-- Settlement of a `deduplicate`-launched promise: `.finally` passes the
outcome through unchanged and removes the Pending Entry by key. -/
def dedupSettle {ε α : Type} (st : DedupState) (key : String)
    (o : Outcome ε α) : Outcome ε α × DedupState :=
  (o, settleDedup st key)

/-- `RequestDeduplicator.cleanup(maxAge = 10000)`: drop completed records
with `now - completedTime > maxAge` and pending entries with
`now - startTime > requestTimeout`. -/
def cleanup (st : DedupState) (now : Nat) (maxAge : Nat := 10000) : DedupState :=
  { st with
    completed := st.completed.filter (fun p => ! decide (now - p.2 > maxAge)),
    pending := st.pending.filter
      (fun p => ! decide (now - p.2.startTime > st.requestTimeout)) }

/-- `startAutoCleanup(intervalMs = 60000)`: a no-op when a timer is already
running, otherwise stores the fresh timer handle. -/
def startAutoCleanup (st : DedupState) (timerId : Nat) : DedupState :=
  if st.cleanupIntervalId.isSome then st
  else { st with cleanupIntervalId := some timerId }

/-- `stopAutoCleanup()`: clears the timer handle. -/
def stopAutoCleanup (st : DedupState) : DedupState :=
  { st with cleanupIntervalId := none }

/-- `getStats()`: sizes of the two tables (`pendingCount, completedCount`).
Both tables hold one binding per key, so list length is `Map.size`. -/
def getStats (st : DedupState) : Nat × Nat :=
  (st.pending.length, st.completed.length)

/-- `clear()`: unconditionally empties both tables. -/
def clear (st : DedupState) : DedupState :=
  { st with pending := [], completed := [] }

/-! ## Trace semantics for concurrent `deduplicate`/`execute` calls

A world pairs the deduplicator state with the list of operation invocations
currently in flight (invoked by a launching call, not yet settled).  Steps
are the synchronous prefixes of `deduplicate`/`execute` calls — each runs
atomically in the single-threaded execution context — and the settlement of
any in-flight invocation, whose handlers then run.  This is exactly the
alphabet of "any number of concurrent `deduplicate`/`execute` calls". -/

/-- Which call launched an in-flight invocation (it determines which
settlement handlers its promise carries). -/
inductive LaunchMode where
  | viaDedup : LaunchMode
  | viaExec : LaunchMode
deriving DecidableEq

/-- Ghost record of one in-flight operation invocation: its promise id,
its key, the captured `blockAfterComplete` (for `execute` launches) and the
launching call's mode. -/
structure LaunchInfo where
  pid : Nat
  key : String
  block : Option Nat
  mode : LaunchMode
deriving DecidableEq

/-- Deduplicator state plus the in-flight invocations. -/
structure World where
  st : DedupState
  running : List LaunchInfo
deriving DecidableEq

/-- In-flight bookkeeping effect of a `deduplicate` call: a launch invokes
the operation (one new in-flight invocation), attaching does not. -/
def dedupRunning (r : DedupResult) (key : String)
    (running : List LaunchInfo) : List LaunchInfo :=
  match r with
  | .launched pid => ⟨pid, key, none, .viaDedup⟩ :: running
  | .attached _ => running

/-- In-flight bookkeeping effect of an `execute` call. -/
def execRunning (r : ExecResult) (running : List LaunchInfo) : List LaunchInfo :=
  match r with
  | .launched pid ctx => ⟨pid, ctx.key, ctx.blockAfterComplete, .viaExec⟩ :: running
  | .attached _ => running
  | .rejected _ => running

/-- State effect of a successful settlement: the handlers of the promise
run (`.finally` for a `deduplicate` launch, `.then` for an `execute`
launch with the captured options). -/
def settleStateOk (st : DedupState) (li : LaunchInfo) (t : Nat) : DedupState :=
  match li.mode with
  | .viaDedup => settleDedup st li.key
  | .viaExec => settleSuccess st ⟨li.key, li.block⟩ t

/-- State effect of a failed settlement (`.finally` respectively
`.catch`). -/
def settleStateErr (st : DedupState) (li : LaunchInfo) : DedupState :=
  match li.mode with
  | .viaDedup => settleDedup st li.key
  | .viaExec => settleFailure st ⟨li.key, li.block⟩

/-- One atomic step: a `deduplicate` call, an `execute` call, or the
settlement (success or failure) of an in-flight invocation. -/
inductive Step : World → World → Prop where
  | dedupCall (w : World) (key : String) (now : Nat) :
      Step w ⟨(deduplicate w.st key now).2,
              dedupRunning (deduplicate w.st key now).1 key w.running⟩
  | execCall (w : World) (opts : ExecuteOptions) (now : Nat) :
      Step w ⟨(execute w.st opts now).2,
              execRunning (execute w.st opts now).1 w.running⟩
  | settleOk (w : World) (li : LaunchInfo) (t : Nat) (h : li ∈ w.running) :
      Step w ⟨settleStateOk w.st li t, w.running.erase li⟩
  | settleErr (w : World) (li : LaunchInfo) (h : li ∈ w.running) :
      Step w ⟨settleStateErr w.st li, w.running.erase li⟩

/-- Worlds reachable from a freshly constructed deduplicator by concurrent
`deduplicate`/`execute` calls and settlements. -/
inductive Reachable : World → Prop where
  | init (rt : Option Nat) : Reachable ⟨mkDeduplicator rt, []⟩
  | step {w w' : World} : Reachable w → Step w w' → Reachable w'

/-! ## Concrete instances used in the claim theorems -/

/-- `execute` options: `GET /u`, no body, 20 ms cool-down window. -/
def optsBlock20 : ExecuteOptions := ⟨"get", "/u", none, some 20⟩

/-- `execute` options: `GET /u`, no body, no cool-down. -/
def optsNoBlock : ExecuteOptions := ⟨"get", "/u", none, none⟩

/-- World after `execute optsBlock20` launched at `t = 1`. -/
def exW1 : World :=
  ⟨⟨[("GET:/u:", ⟨0, 1⟩)], [], none, 30000, 1⟩, [⟨0, "GET:/u:", some 20, .viaExec⟩]⟩

/-- World after that launch settled successfully at `t = 5` (completed
record written, cool-down active until `t = 25`). -/
def exW2 : World := ⟨⟨[], [("GET:/u:", 5)], none, 30000, 1⟩, []⟩

/-- World after `execute optsNoBlock` relaunched the key at `t = 6`:
a Pending Entry and a fresh Completed Record coexist. -/
def exW3 : World :=
  ⟨⟨[("GET:/u:", ⟨1, 6⟩)], [("GET:/u:", 5)], none, 30000, 2⟩,
    [⟨1, "GET:/u:", none, .viaExec⟩]⟩

/-- A state whose completed table holds a record for `GET:/u:` at `t = 5`. -/
def stCompleted5 : DedupState := ⟨[], [("GET:/u:", 5)], none, 30000, 0⟩

/-- Object `\x7b a: 1, b: 2 \x7d` with fields in one insertion order. -/
def objAB : JsonValue := .obj [("a", .num 1), ("b", .num 2)]

/-- The same object with the opposite insertion order. -/
def objBA : JsonValue := .obj [("b", .num 2), ("a", .num 1)]

/-- A state with completed records of ages 11 and 4 at `now = 12`. -/
def stTwoCompleted : DedupState := ⟨[], [("a", 1), ("b", 8)], none, 30000, 0⟩

/-- A state with a Pending Entry for `GET:/u:` whose promise id is 7. -/
def stPending7 : DedupState := ⟨[("GET:/u:", ⟨7, 1⟩)], [], none, 30000, 8⟩

/-! ## Map lemmas -/

theorem mapDelete_cons {α : Type} (pk : String) (pv : α)
    (rest : List (String × α)) (k : String) :
    mapDelete ((pk, pv) :: rest) k =
      if pk = k then mapDelete rest k else (pk, pv) :: mapDelete rest k := by
  by_cases h : pk = k <;> simp [mapDelete, List.filter_cons, h]

theorem mapGet_delete {α : Type} (m : List (String × α)) (k k' : String) :
    mapGet (mapDelete m k) k' = if k' = k then none else mapGet m k' := by
  induction m with
  | nil => simp [mapDelete, mapGet]
  | cons p rest ih =>
    obtain ⟨pk, pv⟩ := p
    rw [mapDelete_cons]
    by_cases h1 : pk = k
    · subst h1
      rw [if_pos rfl, ih]
      by_cases h2 : k' = pk
      · simp [h2]
      · have h3 : ¬ pk = k' := fun h => h2 h.symm
        rw [if_neg h2, if_neg h2]
        simp [mapGet, h3]
    · rw [if_neg h1]
      by_cases h2 : pk = k'
      · subst h2
        simp [mapGet, h1]
      · simp only [mapGet, if_neg h2]
        rw [ih]

theorem mapGet_set {α : Type} (m : List (String × α)) (k : String) (v : α)
    (k' : String) :
    mapGet (mapSet m k v) k' = if k' = k then some v else mapGet m k' := by
  by_cases h : k' = k
  · subst h; simp [mapSet, mapGet]
  · have hk : ¬ k = k' := fun h' => h h'.symm
    simp [mapSet, mapGet, hk, mapGet_delete, h]

/-! ## Inversion lemmas for the synchronous prefixes -/

theorem deduplicate_attached_of_pending {st : DedupState} {key : String}
    {e : PendingEntry} (now : Nat) (h : mapGet st.pending key = some e) :
    deduplicate st key now = (.attached e.promiseId, st) := by
  simp [deduplicate, h]

theorem deduplicate_launched_inv {st : DedupState} {key : String} {now : Nat}
    {pid : Nat} (h : (deduplicate st key now).1 = .launched pid) :
    mapGet st.pending key = none ∧ pid = st.nextId ∧
      (deduplicate st key now).2 =
        { st with pending := mapSet st.pending key ⟨st.nextId, now⟩,
                  nextId := st.nextId + 1 } := by
  cases hp : mapGet st.pending key with
  | some e => simp [deduplicate, hp] at h
  | none =>
    simp [deduplicate, hp] at h ⊢
    exact h.symm

theorem execute_rejected_iff (st : DedupState) (opts : ExecuteOptions) (now : Nat) :
    (execute st opts now).1 = .rejected .recently_completed ↔
      recentlyCompletedGuard st (optKey opts) now opts.blockAfterComplete = true := by
  by_cases hg : recentlyCompletedGuard st (optKey opts) now opts.blockAfterComplete
  · simp [execute, hg]
  · simp only [execute, if_neg hg]
    cases hp : mapGet st.pending (optKey opts) <;> simp [hp, hg]

theorem execute_no_in_progress (st : DedupState) (opts : ExecuteOptions) (now : Nat) :
    (execute st opts now).1 ≠ .rejected .in_progress := by
  by_cases hg : recentlyCompletedGuard st (optKey opts) now opts.blockAfterComplete
  · simp [execute, hg]
  · simp only [execute, if_neg hg]
    cases hp : mapGet st.pending (optKey opts) <;> simp [hp]

theorem execute_rejected_state {st : DedupState} {opts : ExecuteOptions} {now : Nat}
    {r : RejectReason} (h : (execute st opts now).1 = .rejected r) :
    (execute st opts now).2 = st := by
  by_cases hg : recentlyCompletedGuard st (optKey opts) now opts.blockAfterComplete
  · simp [execute, hg]
  · simp only [execute, if_neg hg] at h ⊢
    cases hp : mapGet st.pending (optKey opts) <;> simp [hp] at h ⊢

theorem execute_attached_inv {st : DedupState} {opts : ExecuteOptions} {now : Nat}
    {pid : Nat} (h : (execute st opts now).1 = .attached pid) :
    (execute st opts now).2 = st ∧
      ∃ e, mapGet st.pending (optKey opts) = some e ∧ e.promiseId = pid := by
  by_cases hg : recentlyCompletedGuard st (optKey opts) now opts.blockAfterComplete
  · simp [execute, hg] at h
  · simp only [execute, if_neg hg] at h ⊢
    cases hp : mapGet st.pending (optKey opts) with
    | some e => simp [hp] at h ⊢; exact h
    | none => simp [hp] at h

theorem execute_launched_inv {st : DedupState} {opts : ExecuteOptions} {now : Nat}
    {pid : Nat} {ctx : LaunchCtx} (h : (execute st opts now).1 = .launched pid ctx) :
    recentlyCompletedGuard st (optKey opts) now opts.blockAfterComplete = false ∧
      mapGet st.pending (optKey opts) = none ∧ pid = st.nextId ∧
      ctx = ⟨optKey opts, opts.blockAfterComplete⟩ ∧
      (execute st opts now).2 =
        { st with pending := mapSet st.pending (optKey opts) ⟨st.nextId, now⟩,
                  nextId := st.nextId + 1 } := by
  by_cases hg : recentlyCompletedGuard st (optKey opts) now opts.blockAfterComplete
  · simp [execute, hg] at h
  · simp only [execute, if_neg hg] at h ⊢
    cases hp : mapGet st.pending (optKey opts) with
    | some e => simp [hp] at h
    | none =>
      simp [hp] at h ⊢
      simp [hg, h.1.symm, h.2.symm]

/-- The pending table after any settlement: the entry for the settled key
is deleted, whatever the launch mode and outcome. -/
theorem settleStateOk_pending (st : DedupState) (li : LaunchInfo) (t : Nat) :
    (settleStateOk st li t).pending = mapDelete st.pending li.key := by
  cases li with
  | mk pid key block mode =>
    cases mode with
    | viaDedup => simp [settleStateOk, settleDedup]
    | viaExec =>
      simp only [settleStateOk, settleSuccess]
      split <;> rfl

theorem settleStateErr_pending (st : DedupState) (li : LaunchInfo) :
    (settleStateErr st li).pending = mapDelete st.pending li.key := by
  cases li with
  | mk pid key block mode =>
    cases mode <;> simp [settleStateErr, settleDedup, settleFailure]

/-! ## The at-most-one-in-flight invariant -/

/-- Invariant tying the ghost in-flight list to the pending table: every
in-flight invocation still has a Pending Entry for its key, and no two
in-flight invocations share a key. -/
def WorldInv (w : World) : Prop :=
  (∀ li ∈ w.running, (mapGet w.st.pending li.key).isSome) ∧
    (w.running.map (fun li => li.key)).Nodup

theorem worldInv_dedupCall (w : World) (key : String) (now : Nat)
    (h : WorldInv w) :
    WorldInv ⟨(deduplicate w.st key now).2,
              dedupRunning (deduplicate w.st key now).1 key w.running⟩ := by
  obtain ⟨hpend, hnodup⟩ := h
  cases hr : (deduplicate w.st key now).1 with
  | attached pid =>
    cases hp : mapGet w.st.pending key with
    | some e =>
      have hd := deduplicate_attached_of_pending now hp
      refine ⟨?_, ?_⟩ <;> simp [hd, dedupRunning]
      · exact fun li hli => hpend li hli
      · exact hnodup
    | none => simp [deduplicate, hp] at hr
  | launched pid =>
    obtain ⟨hp, hpid, hst⟩ := deduplicate_launched_inv hr
    constructor
    · intro li hli
      simp only [dedupRunning, hr, List.mem_cons] at hli
      rcases hli with rfl | hli
      · simp [hst, mapGet_set]
      · have := hpend li hli
        simp only [hst, mapGet_set]
        by_cases hk : li.key = key <;> simp [hk, this]
    · have hnew : key ∉ w.running.map (fun li => li.key) := by
        intro hmem
        obtain ⟨li, hli, hkey⟩ := List.mem_map.mp hmem
        have := hpend li hli
        rw [hkey, hp] at this
        simp at this
      simp only [dedupRunning, hr, List.map_cons]
      exact List.nodup_cons.mpr ⟨hnew, hnodup⟩

theorem worldInv_execCall (w : World) (opts : ExecuteOptions) (now : Nat)
    (h : WorldInv w) :
    WorldInv ⟨(execute w.st opts now).2,
              execRunning (execute w.st opts now).1 w.running⟩ := by
  obtain ⟨hpend, hnodup⟩ := h
  cases hr : (execute w.st opts now).1 with
  | attached pid =>
    obtain ⟨hst, _⟩ := execute_attached_inv hr
    exact ⟨by simp [hst, execRunning]; exact fun li hli => hpend li hli,
           by simp [execRunning]; exact hnodup⟩
  | rejected r =>
    have hst := execute_rejected_state hr
    exact ⟨by simp [hst, execRunning]; exact fun li hli => hpend li hli,
           by simp [execRunning]; exact hnodup⟩
  | launched pid ctx =>
    obtain ⟨hg, hp, hpid, hctx, hst⟩ := execute_launched_inv hr
    constructor
    · intro li hli
      simp only [execRunning, hr, List.mem_cons] at hli
      rcases hli with rfl | hli
      · simp [hst, hctx, mapGet_set]
      · have := hpend li hli
        simp only [hst, mapGet_set]
        by_cases hk : li.key = optKey opts <;> simp [hk, this]
    · have hnew : ctx.key ∉ w.running.map (fun li => li.key) := by
        intro hmem
        obtain ⟨li, hli, hkey⟩ := List.mem_map.mp hmem
        have := hpend li hli
        rw [hkey, hctx] at this
        simp only at this
        rw [hp] at this
        simp at this
      simp only [execRunning, hr, List.map_cons]
      exact List.nodup_cons.mpr ⟨hnew, hnodup⟩

theorem worldInv_settle (w : World) (li : LaunchInfo)
    (hmem : li ∈ w.running) (h : WorldInv w) (st' : DedupState)
    (hpend' : st'.pending = mapDelete w.st.pending li.key) :
    WorldInv ⟨st', w.running.erase li⟩ := by
  obtain ⟨hpend, hnodup⟩ := h
  have hrunnodup : w.running.Nodup := List.Nodup.of_map _ hnodup
  constructor
  · intro li' hli'
    have hli'mem : li' ∈ w.running := List.mem_of_mem_erase hli'
    have hne : li' ≠ li := ((List.Nodup.mem_erase_iff hrunnodup).mp hli').1
    have hkne : li'.key ≠ li.key := by
      intro hk
      exact hne (List.inj_on_of_nodup_map hnodup hli'mem hmem hk)
    have := hpend li' hli'mem
    simp [hpend', mapGet_delete, hkne, this]
  · exact List.Nodup.sublist (List.Sublist.map _ (List.erase_sublist li w.running))
      hnodup

theorem worldInv_of_reachable {w : World} (h : Reachable w) : WorldInv w := by
  induction h with
  | init rt =>
    exact ⟨by intro li hli; simp [mkDeduplicator] at hli, by simp [mkDeduplicator]⟩
  | step hr hstep ih =>
    cases hstep with
    | dedupCall key now => exact worldInv_dedupCall _ key now ih
    | execCall opts now => exact worldInv_execCall _ opts now ih
    | settleOk li t hmem =>
      exact worldInv_settle _ li hmem ih _ (settleStateOk_pending _ li t)
    | settleErr li hmem =>
      exact worldInv_settle _ li hmem ih _ (settleStateErr_pending _ li)

/-- A list whose mapped keys are pairwise distinct has at most one element
with any given key. -/
theorem length_filter_key_le_one (l : List LaunchInfo)
    (hn : (l.map (fun li => li.key)).Nodup) (k : String) :
    (l.filter (fun li => li.key == k)).length ≤ 1 := by
  induction l with
  | nil => simp
  | cons a t ih =>
    simp only [List.map_cons, List.nodup_cons] at hn
    obtain ⟨ha, ht⟩ := hn
    by_cases hk : a.key = k
    · have hnone : t.filter (fun li => li.key == k) = [] := by
        rw [List.filter_eq_nil_iff]
        intro b hb
        simp only [beq_iff_eq]
        intro hbk
        apply ha
        have hba : b.key = a.key := by rw [hbk, hk]
        exact hba ▸ List.mem_map_of_mem (fun li => li.key) hb
      simp [List.filter_cons, hk, hnone]
    · simp only [List.filter_cons, beq_iff_eq, hk]
      simpa using ih ht

/-! ## Canonicalization: key-order invariance of `sortObjectKeys` -/

/-- The "differs only in object property insertion order" relation on JSON
trees, recursively (also inside arrays and nested objects): the congruence
closure of permuting an object's field list.  `permObj` carries the
distinctness of the keys, which every JavaScript object satisfies. -/
inductive KeyPerm : JsonValue → JsonValue → Prop where
  | refl (v : JsonValue) : KeyPerm v v
  | trans {a b c : JsonValue} : KeyPerm a b → KeyPerm b c → KeyPerm a c
  | permObj (fs gs : List (String × JsonValue)) (hp : List.Perm fs gs)
      (hn : (fs.map Prod.fst).Nodup) : KeyPerm (.obj fs) (.obj gs)
  | arrCons {x y : JsonValue} {xs ys : List JsonValue} :
      KeyPerm x y → KeyPerm (.arr xs) (.arr ys) →
      KeyPerm (.arr (x :: xs)) (.arr (y :: ys))
  | objCons (k : String) {v w : JsonValue} {fs gs : List (String × JsonValue)} :
      KeyPerm v w → KeyPerm (.obj fs) (.obj gs) →
      KeyPerm (.obj ((k, v) :: fs)) (.obj ((k, w) :: gs))

theorem sortFields_eq_map (l : List (String × JsonValue)) :
    sortFields l = l.map (fun p => (p.1, sortObjectKeys p.2)) := by
  induction l with
  | nil => rfl
  | cons p rest ih =>
    obtain ⟨k, v⟩ := p
    simp [sortFields, ih]

theorem sorted_keyLt_of_sorted_keyLe {l : List (String × JsonValue)}
    (hs : List.Sorted keyLe l) (hn : (l.map Prod.fst).Nodup) :
    List.Sorted keyLt l := by
  have hne : l.Pairwise (fun a b => a.1 ≠ b.1) := List.pairwise_map.mp hn
  refine (hs.and hne).imp fun h => ?_
  rcases h.1 with hlt | heq
  · exact hlt
  · exact absurd heq h.2

/-- Two sorted field lists that are permutations of each other and have
pairwise-distinct keys are equal. -/
theorem eq_of_perm_sorted_nodupKeys {l₁ l₂ : List (String × JsonValue)}
    (hp : l₁.Perm l₂) (hs₁ : List.Sorted keyLe l₁) (hs₂ : List.Sorted keyLe l₂)
    (hn : (l₁.map Prod.fst).Nodup) : l₁ = l₂ :=
  List.eq_of_perm_of_sorted hp (sorted_keyLt_of_sorted_keyLe hs₁ hn)
    (sorted_keyLt_of_sorted_keyLe hs₂ ((hp.map Prod.fst).nodup_iff.mp hn))

/-- Key-order invariance: values differing only in object property
insertion order canonicalize identically. -/
theorem sortObjectKeys_eq_of_keyPerm {v w : JsonValue} (h : KeyPerm v w) :
    sortObjectKeys v = sortObjectKeys w := by
  induction h with
  | refl v => rfl
  | trans _ _ ih₁ ih₂ => exact ih₁.trans ih₂
  | permObj fs gs hp hn =>
    simp only [sortObjectKeys, JsonValue.obj.injEq]
    have hmapperm : (sortFields fs).Perm (sortFields gs) := by
      rw [sortFields_eq_map, sortFields_eq_map]
      exact hp.map _
    have hfnodup : ((sortFields fs).map Prod.fst).Nodup := by
      rw [sortFields_eq_map, List.map_map]
      exact hn
    have hperm : (List.insertionSort keyLe (sortFields fs)).Perm
        (List.insertionSort keyLe (sortFields gs)) :=
      ((List.perm_insertionSort keyLe (sortFields fs)).trans hmapperm).trans
        (List.perm_insertionSort keyLe (sortFields gs)).symm
    have hnodup : ((List.insertionSort keyLe (sortFields fs)).map Prod.fst).Nodup :=
      (((List.perm_insertionSort keyLe (sortFields fs)).map Prod.fst).nodup_iff).mpr
        hfnodup
    exact eq_of_perm_sorted_nodupKeys hperm
      (List.sorted_insertionSort keyLe (sortFields fs))
      (List.sorted_insertionSort keyLe (sortFields gs)) hnodup
  | arrCons _ _ ih₁ ih₂ =>
    simp only [sortObjectKeys, sortArr, JsonValue.arr.injEq] at ih₂ ⊢
    rw [ih₁, ih₂]
  | objCons k _ _ ih₁ ih₂ =>
    simp only [sortObjectKeys, sortFields, JsonValue.obj.injEq,
      List.insertionSort] at ih₂ ⊢
    rw [ih₁, ih₂]

/-! ## Guard lemmas -/

theorem recentlyCompletedGuard_true_iff (st : DedupState) (key : String)
    (now : Nat) (block : Option Nat) :
    recentlyCompletedGuard st key now block = true ↔
      ∃ b, block = some b ∧ 0 < b ∧
        ∃ t, mapGet st.completed key = some t ∧ t ≠ 0 ∧ now - t < b := by
  cases block with
  | none => simp [recentlyCompletedGuard]
  | some b =>
    cases h : mapGet st.completed key with
    | none => simp [recentlyCompletedGuard, h]
    | some t => simp [recentlyCompletedGuard, h, and_assoc]

theorem recentlyCompletedGuard_monotone {st st' : DedupState} {key : String}
    {now now₂ : Nat} {block : Option Nat}
    (hc : mapGet st'.completed key = mapGet st.completed key)
    (hg : recentlyCompletedGuard st key now block = false) (hm : now ≤ now₂) :
    recentlyCompletedGuard st' key now₂ block = false := by
  cases block with
  | none => rfl
  | some b =>
    simp only [recentlyCompletedGuard, hc] at hg ⊢
    cases h : mapGet st.completed key with
    | none => simp
    | some t =>
      rw [h] at hg
      simp only [Bool.and_eq_false_iff, decide_eq_false_iff_not] at hg ⊢
      rcases hg with h1 | h1
      · exact Or.inl h1
      · rcases h1 with h1 | h1
        · exact Or.inr (Or.inl h1)
        · exact Or.inr (Or.inr (by omega))

theorem execute_launches {st : DedupState} {opts : ExecuteOptions} {now : Nat}
    (hg : recentlyCompletedGuard st (optKey opts) now opts.blockAfterComplete = false)
    (hp : mapGet st.pending (optKey opts) = none) :
    (execute st opts now).1 =
      .launched st.nextId ⟨optKey opts, opts.blockAfterComplete⟩ := by
  simp [execute, hg, hp]

/-! ## Claim theorems -/

/-- Claim C1, as frozen, is falsified by its "whenever a Pending Entry
exists for k, a new deduplicate or execute call returns that entry's shared
promise" part: `execute` checks the recently-completed guard before the
pending table, so in the reachable world `exW3` — where `GET:/u:` has both
a Pending Entry (promise id 1) and a fresh Completed Record — an `execute`
call with a positive `blockAfterComplete` rejects with
`recently_completed` instead of attaching to the Pending Entry. -/
theorem c1_counterexample :
    Reachable exW3 ∧
    optKey optsBlock20 = "GET:/u:" ∧
    mapGet exW3.st.pending "GET:/u:" = some ⟨1, 6⟩ ∧
    (execute exW3.st optsBlock20 7).1 = .rejected .recently_completed ∧
    (execute exW3.st optsBlock20 7).1 ≠ .attached 1 := by
  refine ⟨?_, by decide, by decide, by decide, by decide⟩
  have h0 : Reachable ⟨mkDeduplicator none, []⟩ := Reachable.init none
  have s1 := Step.execCall ⟨mkDeduplicator none, []⟩ optsBlock20 1
  have e1 : (⟨(execute (mkDeduplicator none) optsBlock20 1).2,
      execRunning (execute (mkDeduplicator none) optsBlock20 1).1 []⟩ : World) =
      exW1 := by decide
  have h1 : Reachable exW1 := Reachable.step h0 (e1 ▸ s1)
  have hm : (⟨0, "GET:/u:", some 20, .viaExec⟩ : LaunchInfo) ∈ exW1.running := by
    decide
  have s2 := Step.settleOk exW1 ⟨0, "GET:/u:", some 20, .viaExec⟩ 5 hm
  have e2 : (⟨settleStateOk exW1.st ⟨0, "GET:/u:", some 20, .viaExec⟩ 5,
      exW1.running.erase ⟨0, "GET:/u:", some 20, .viaExec⟩⟩ : World) = exW2 := by
    decide
  have h2 : Reachable exW2 := Reachable.step h1 (e2 ▸ s2)
  have s3 := Step.execCall exW2 optsNoBlock 6
  have e3 : (⟨(execute exW2.st optsNoBlock 6).2,
      execRunning (execute exW2.st optsNoBlock 6).1 exW2.running⟩ : World) =
      exW3 := by decide
  exact Reachable.step h2 (e3 ▸ s3)

/-- Claim C1 (amended): for every key, at most one invocation of the
caller-supplied operation is in flight at any instant, across any number of
concurrent `deduplicate`/`execute` calls with that key; whenever a Pending
Entry exists for the key, a `deduplicate` call — and an `execute` call that
is not rejected by the recently-completed guard — returns that entry's
shared promise without invoking its own operation and without changing the
state, so all callers attached to the same entry hold the same promise and
observe the same outcome. -/
theorem c1_single_flight_per_key :
    (∀ w, Reachable w → ∀ key,
      (w.running.filter (fun li => li.key == key)).length ≤ 1) ∧
    (∀ st key now (e : PendingEntry), mapGet st.pending key = some e →
      deduplicate st key now = (.attached e.promiseId, st)) ∧
    (∀ st opts now (e : PendingEntry), mapGet st.pending (optKey opts) = some e →
      recentlyCompletedGuard st (optKey opts) now opts.blockAfterComplete = false →
      execute st opts now = (.attached e.promiseId, st)) := by
  refine ⟨?_, ?_, ?_⟩
  · intro w hw key
    exact length_filter_key_le_one w.running (worldInv_of_reachable hw).2 key
  · intro st key now e he
    exact deduplicate_attached_of_pending now he
  · intro st opts now e he hg
    simp [execute, hg, he]

/-- Witness for `c1_single_flight_per_key` at concrete inputs. -/
theorem c1_single_flight_per_key_witness :
    ((⟨mkDeduplicator none, []⟩ : World).running.filter
      (fun li => li.key == "GET:/u:")).length ≤ 1 ∧
    execute stPending7 optsBlock20 3 = (.attached 7, stPending7) :=
  ⟨c1_single_flight_per_key.1 ⟨mkDeduplicator none, []⟩ (Reachable.init none)
    "GET:/u:",
   c1_single_flight_per_key.2.2 stPending7 optsBlock20 3 ⟨7, 1⟩ (by decide)
    (by decide)⟩

/-- Claim C2: `execute` rejects with reason `recently_completed` exactly
when its `blockAfterComplete` is a positive duration and a Completed Record
for the computed key exists with age `now - t` strictly below that
duration; on rejection the state is unchanged and nothing is registered
(the operation is never invoked); with `blockAfterComplete` zero or
omitted it never rejects with `recently_completed`; and it never rejects
with `in_progress` on any input.  The hypothesis `hpos` records that
completion timestamps are `Date.now()` values, hence positive (a record
with timestamp literally `0` would be falsy in the JavaScript guard). -/
theorem c2_recently_completed_exact (st : DedupState) (opts : ExecuteOptions)
    (now : Nat)
    (hpos : ∀ t, mapGet st.completed (optKey opts) = some t → 0 < t) :
    ((execute st opts now).1 = .rejected .recently_completed ↔
      ∃ b, opts.blockAfterComplete = some b ∧ 0 < b ∧
        ∃ t, mapGet st.completed (optKey opts) = some t ∧ now - t < b) ∧
    ((execute st opts now).1 = .rejected .recently_completed →
      (execute st opts now).2 = st) ∧
    ((opts.blockAfterComplete = none ∨ opts.blockAfterComplete = some 0) →
      (execute st opts now).1 ≠ .rejected .recently_completed) ∧
    (execute st opts now).1 ≠ .rejected .in_progress := by
  refine ⟨?_, fun h => execute_rejected_state h, ?_, execute_no_in_progress st opts now⟩
  · rw [execute_rejected_iff, recentlyCompletedGuard_true_iff]
    constructor
    · rintro ⟨b, hb, hbpos, t, ht, _, hage⟩
      exact ⟨b, hb, hbpos, t, ht, hage⟩
    · rintro ⟨b, hb, hbpos, t, ht, hage⟩
      exact ⟨b, hb, hbpos, t, ht, Nat.pos_iff_ne_zero.mp (hpos t ht), hage⟩
  · intro h hrej
    rw [execute_rejected_iff, recentlyCompletedGuard_true_iff] at hrej
    obtain ⟨b, hb, hbpos, _⟩ := hrej
    rcases h with h | h <;> rw [h] at hb <;> simp at hb
    omega

/-- Witness for `c2_recently_completed_exact`: at `now = 7`, with a record
completed at `t = 5` and a 20 ms window, `execute` rejects. -/
theorem c2_recently_completed_exact_witness :
    (execute stCompleted5 optsBlock20 7).1 = .rejected .recently_completed :=
  (c2_recently_completed_exact stCompleted5 optsBlock20 7
    (by
      intro t ht
      rw [show mapGet stCompleted5.completed (optKey optsBlock20) = some 5 from
        by decide] at ht
      injection ht with h
      omega)).1.mpr ⟨20, rfl, by decide, 5, by decide, by decide⟩

/-- Claim C3, as frozen, is falsified by its "reordering the elements of an
array in data yields a different string" part: reversing the two-element
array `[objAB, objBA]` yields a genuinely different array (`objAB` and
`objBA` list their fields in opposite insertion orders), yet the generated
keys are identical, because the two elements canonicalize to the same
object once their keys are sorted. -/
theorem c3_counterexample :
    [objBA, objAB] = List.reverse [objAB, objBA] ∧
    JsonValue.arr [objAB, objBA] ≠ JsonValue.arr [objBA, objAB] ∧
    generateKey "post" "/a" (some (.json (.arr [objAB, objBA]))) =
      generateKey "post" "/a" (some (.json (.arr [objBA, objAB]))) := by
  refine ⟨rfl, ?_, by decide⟩
  simp [objAB, objBA]

/-- Claim C3 (amended): `generateKey method url data` is the string
`upperCase method ++ ":" ++ url ++ ":" ++ serializedData`, with an empty
data part for `undefined` data; values differing only in object property
insertion order (recursively, including objects nested inside arrays)
produce identical keys, so repeated calls with structurally-equal arguments
yield identical strings; array element order is significant — reordering
array elements can change the key (e.g. `[1, 2]` versus `[2, 1]`) — though
a reordering that produces a structurally-equal array (swapping two
elements that differ only in field insertion order) does not. -/
theorem c3_generateKey_stable (m u : String) (d : JsonValue)
    (v w : JsonValue) (h : KeyPerm v w) :
    generateKey m u none = upperCase m ++ ":" ++ u ++ ":" ∧
    generateKey m u (some (.json d)) =
      upperCase m ++ ":" ++ u ++ ":" ++ stringify (sortObjectKeys d) ∧
    generateKey m u (some (.json v)) = generateKey m u (some (.json w)) ∧
    generateKey "post" "/a" (some (.json (.arr [.num 1, .num 2]))) ≠
      generateKey "post" "/a" (some (.json (.arr [.num 2, .num 1]))) := by
  refine ⟨?_, rfl, ?_, by decide⟩
  · simp [generateKey]
  · simp [generateKey, serializeData, sortObjectKeys_eq_of_keyPerm h]

/-- Witness for `c3_generateKey_stable`: the two insertion orders of the
same object generate equal keys. -/
theorem c3_generateKey_stable_witness :
    generateKey "get" "/x" (some (.json objAB)) =
      generateKey "get" "/x" (some (.json objBA)) :=
  (c3_generateKey_stable "get" "/x" .null objAB objBA
    (KeyPerm.permObj _ _
      (List.Perm.swap ("b", JsonValue.num 2) ("a", JsonValue.num 1) [])
      (by decide))).2.2.1

/-- Claim C4: when an operation launched by `execute` settles successfully,
the `.then` handler removes the Pending Entry for the captured key, and
writes (creates or overwrites) a Completed Record carrying the
settlement-time timestamp if and only if the launching call's
`blockAfterComplete` was positive — with `blockAfterComplete` zero or
omitted the completed table is left exactly as it was.  The last conjunct
ties the captured closure to the launching call: the context recorded at
launch carries that call's key and `blockAfterComplete`. -/
theorem c4_success_settlement (st : DedupState) (ctx : LaunchCtx) (t : Nat) :
    mapGet (settleSuccess st ctx t).pending ctx.key = none ∧
    (blockPositive ctx.blockAfterComplete = true →
      (settleSuccess st ctx t).completed = mapSet st.completed ctx.key t) ∧
    (blockPositive ctx.blockAfterComplete = false →
      (settleSuccess st ctx t).completed = st.completed) ∧
    (blockPositive ctx.blockAfterComplete = true ↔
      ∃ b, ctx.blockAfterComplete = some b ∧ 0 < b) ∧
    (∀ st' opts now pid c, (execute st' opts now).1 = .launched pid c →
      c.key = optKey opts ∧ c.blockAfterComplete = opts.blockAfterComplete) := by
  refine ⟨?_, ?_, ?_, ?_, ?_⟩
  · cases hb : blockPositive ctx.blockAfterComplete <;>
      simp [settleSuccess, hb, mapGet_delete]
  · intro hb; simp [settleSuccess, hb]
  · intro hb; simp [settleSuccess, hb]
  · cases hb : ctx.blockAfterComplete <;> simp [blockPositive, hb]
  · intro st' opts now pid c h
    obtain ⟨_, _, _, hctx, _⟩ := execute_launched_inv h
    rw [hctx]
    exact ⟨rfl, rfl⟩

/-- Witness for `c4_success_settlement`: settlement at `t = 9` of a launch
with a 5 ms window deletes the pending entry and records timestamp 9. -/
theorem c4_success_settlement_witness :
    mapGet (settleSuccess stPending7 ⟨"GET:/u:", some 5⟩ 9).pending "GET:/u:" =
      none ∧
    (settleSuccess stPending7 ⟨"GET:/u:", some 5⟩ 9).completed =
      mapSet stPending7.completed "GET:/u:" 9 ∧
    (settleSuccess stPending7 ⟨"GET:/u:", none⟩ 9).completed =
      stPending7.completed :=
  ⟨(c4_success_settlement stPending7 ⟨"GET:/u:", some 5⟩ 9).1,
   (c4_success_settlement stPending7 ⟨"GET:/u:", some 5⟩ 9).2.1 (by decide),
   (c4_success_settlement stPending7 ⟨"GET:/u:", none⟩ 9).2.2.1 (by decide)⟩

/-- Claim C5: when an operation launched by `execute` fails, the `.catch`
handler removes the Pending Entry, writes no Completed Record (the
completed table after settlement is exactly what it was before the launch),
and rethrows the operation's own failure value unchanged — likewise
`deduplicate`'s `.finally` passes the outcome through unchanged — so an
immediate retry of the same key with the same config at any `now₂ ≥ now`
launches the operation again instead of being rejected. -/
theorem c5_failure_settlement (st : DedupState) (opts : ExecuteOptions)
    (now now₂ : Nat) (pid : Nat) (ctx : LaunchCtx)
    (hlaunch : (execute st opts now).1 = .launched pid ctx)
    (hmono : now ≤ now₂) :
    mapGet (settleFailure (execute st opts now).2 ctx).pending (optKey opts) =
      none ∧
    (settleFailure (execute st opts now).2 ctx).completed = st.completed ∧
    (∀ (ε α : Type) (e : ε) (t : Nat),
      @execSettle ε α (execute st opts now).2 ctx (Outcome.err e) t =
        (.err e, settleFailure (execute st opts now).2 ctx)) ∧
    (∀ (ε α : Type) (key : String) (st₀ : DedupState) (o : Outcome ε α),
      (dedupSettle st₀ key o).1 = o) ∧
    (∃ pid' ctx',
      (execute (settleFailure (execute st opts now).2 ctx) opts now₂).1 =
        .launched pid' ctx') := by
  obtain ⟨hg, hp, hpid, hctx, hst⟩ := execute_launched_inv hlaunch
  have hkey : ctx.key = optKey opts := by rw [hctx]
  have hpend : mapGet (settleFailure (execute st opts now).2 ctx).pending
      (optKey opts) = none := by
    rw [settleFailure, hst, hkey]
    simp [mapGet_delete]
  have hcomp : (settleFailure (execute st opts now).2 ctx).completed =
      st.completed := by
    rw [settleFailure, hst]
  refine ⟨hpend, hcomp, fun ε α e t => rfl, fun ε α key st₀ o => rfl, ?_⟩
  have hg₂ : recentlyCompletedGuard (settleFailure (execute st opts now).2 ctx)
      (optKey opts) now₂ opts.blockAfterComplete = false := by
    apply recentlyCompletedGuard_monotone _ hg hmono
    rw [hcomp]
  exact ⟨_, _, execute_launches hg₂ hpend⟩

/-- Witness for `c5_failure_settlement`: a launch at `t = 1` that fails
settles into a state in which an immediate retry at `t = 2` launches
again. -/
theorem c5_failure_settlement_witness :
    ∃ pid' ctx',
      (execute (settleFailure
          (execute (mkDeduplicator none) optsNoBlock 1).2 ⟨"GET:/u:", none⟩)
        optsNoBlock 2).1 = .launched pid' ctx' :=
  (c5_failure_settlement (mkDeduplicator none) optsNoBlock 1 2 0 ⟨"GET:/u:", none⟩
    (by decide) (by decide)).2.2.2.2

/-- Claim C6: `cleanup maxAge` (default 10000 ms) removes from the
completed table exactly the records whose age `now - t` is strictly
greater than `maxAge` and keeps the rest, and removes from the pending
table exactly the entries whose age exceeds the configured
`requestTimeout` (default 30000 ms), independently of the `maxAge`
argument. -/
theorem c6_cleanup_exact (st : DedupState) (now maxAge : Nat) :
    (∀ k t, (k, t) ∈ (cleanup st now maxAge).completed ↔
      (k, t) ∈ st.completed ∧ ¬ now - t > maxAge) ∧
    (∀ k (e : PendingEntry), (k, e) ∈ (cleanup st now maxAge).pending ↔
      (k, e) ∈ st.pending ∧ ¬ now - e.startTime > st.requestTimeout) ∧
    (∀ a, (cleanup st now a).pending = (cleanup st now maxAge).pending) ∧
    cleanup st now = cleanup st now 10000 ∧
    (mkDeduplicator none).requestTimeout = 30000 := by
  refine ⟨?_, ?_, fun a => rfl, rfl, rfl⟩
  · intro k t
    simp [cleanup, List.mem_filter]
  · intro k e
    simp [cleanup, List.mem_filter]

/-- Witness for `c6_cleanup_exact`: at `now = 12` with `maxAge = 10`, the
record completed at `t = 8` (age 4) survives and the record completed at
`t = 1` (age 11) is removed. -/
theorem c6_cleanup_exact_witness :
    ("b", 8) ∈ (cleanup stTwoCompleted 12 10).completed ∧
    ("a", 1) ∉ (cleanup stTwoCompleted 12 10).completed := by
  constructor
  · exact ((c6_cleanup_exact stTwoCompleted 12 10).1 "b" 8).mpr
      ⟨by decide, by decide⟩
  · intro h
    have := (((c6_cleanup_exact stTwoCompleted 12 10).1 "a" 1).mp h).2
    omega

/-- Claim C7: from every state, `clear()` empties both tables — an
immediately following `getStats()` reports `(0, 0)` — and leaves the
auto-cleanup timer handle (and the rest of the configuration) untouched. -/
theorem c7_clear_empties_tables (st : DedupState) :
    getStats (clear st) = (0, 0) ∧
    (clear st).cleanupIntervalId = st.cleanupIntervalId ∧
    (clear st).requestTimeout = st.requestTimeout :=
  ⟨rfl, rfl, rfl⟩

/-- Claim C8: `generateKey` is total: on data whose serialization throws
(`serializeData` yields `none`, as for a cyclic structure), it falls back
to the `String(data)` coercion and still returns
`METHOD:URL:coercion`, and neither `execute` nor `deduplicate` ever
surfaces a serialization failure — each call attaches, launches, or
rejects with `recently_completed` (`deduplicate` only ever attaches or
launches). -/
theorem c8_generateKey_total_fallback (m u r : String) (st : DedupState)
    (now : Nat) (b : Option Nat) :
    serializeData (.unserializable r) = none ∧
    generateKey m u (some (.unserializable r)) =
      upperCase m ++ ":" ++ u ++ ":" ++ r ∧
    ((∃ pid, (execute st ⟨m, u, some (.unserializable r), b⟩ now).1 =
        .attached pid) ∨
      (∃ pid ctx, (execute st ⟨m, u, some (.unserializable r), b⟩ now).1 =
        .launched pid ctx) ∨
      (execute st ⟨m, u, some (.unserializable r), b⟩ now).1 =
        .rejected .recently_completed) ∧
    ((∃ pid, (deduplicate st (optKey ⟨m, u, some (.unserializable r), b⟩) now).1 =
        .attached pid) ∨
      (∃ pid, (deduplicate st (optKey ⟨m, u, some (.unserializable r), b⟩) now).1 =
        .launched pid)) := by
  set opts : ExecuteOptions := ⟨m, u, some (.unserializable r), b⟩ with hopts
  refine ⟨rfl, rfl, ?_, ?_⟩
  · cases h : (execute st opts now).1 with
    | attached pid => exact Or.inl ⟨pid, rfl⟩
    | launched pid ctx => exact Or.inr (Or.inl ⟨pid, ctx, rfl⟩)
    | rejected rr =>
      cases rr with
      | in_progress => exact absurd h (execute_no_in_progress st opts now)
      | recently_completed => exact Or.inr (Or.inr rfl)
  · cases hp : mapGet st.pending (optKey opts) with
    | some e => exact Or.inl ⟨e.promiseId, by simp [deduplicate, hp]⟩
    | none => exact Or.inr ⟨st.nextId, by simp [deduplicate, hp]⟩

/-- Witness for `c8_generateKey_total_fallback`: a cyclic body coerces to
`[object Object]` and still yields a key. -/
theorem c8_generateKey_total_fallback_witness :
    generateKey "post" "/p" (some (.unserializable "[object Object]")) =
      upperCase "post" ++ ":" ++ "/p" ++ ":" ++ "[object Object]" :=
  (c8_generateKey_total_fallback "post" "/p" "[object Object]"
    (mkDeduplicator none) 1 none).2.1

/-- Claim C9: `deduplicate` neither reads nor writes the completed table:
its settlement handler (`settleDedup`) leaves the table unchanged, its
result and its effect on the pending table are independent of the
completed table's contents (so it never rejects on an unexpired Completed
Record — indeed it never rejects at all, every call attaches or
launches), and `getStats().completedCount` is unaffected. -/
theorem c9_deduplicate_frame (st : DedupState) (key : String) (now : Nat)
    (c : List (String × Nat)) :
    ((deduplicate st key now).2).completed = st.completed ∧
    (deduplicate { st with completed := c } key now).1 =
      (deduplicate st key now).1 ∧
    ((deduplicate { st with completed := c } key now).2).pending =
      ((deduplicate st key now).2).pending ∧
    (settleDedup st key).completed = st.completed ∧
    (getStats ((deduplicate st key now).2)).2 = (getStats st).2 ∧
    ((∃ pid, (deduplicate st key now).1 = .attached pid) ∨
      (∃ pid, (deduplicate st key now).1 = .launched pid)) := by
  cases hp : mapGet st.pending key with
  | some e =>
    refine ⟨?_, ?_, ?_, rfl, ?_, Or.inl ⟨e.promiseId, ?_⟩⟩ <;>
      simp [deduplicate, hp, settleDedup, getStats]
  | none =>
    refine ⟨?_, ?_, ?_, rfl, ?_, Or.inr ⟨st.nextId, ?_⟩⟩ <;>
      simp [deduplicate, hp, settleDedup, getStats]

/-- Claim C10: an `execute` call that attaches to an existing Pending
Entry mutates nothing — the state is returned unchanged and the promise it
returns is the entry's — and the attaching call's `blockAfterComplete`
plays no role in the eventual Completed Record: the settlement write is
governed solely by the launch context, which carries the registering
call's key and `blockAfterComplete`. -/
theorem c10_attach_no_mutation :
    (∀ st opts now pid, (execute st opts now).1 = .attached pid →
      (execute st opts now).2 = st ∧
      ∃ e, mapGet st.pending (optKey opts) = some e ∧ e.promiseId = pid) ∧
    (∀ st opts now pid ctx, (execute st opts now).1 = .launched pid ctx →
      ctx.key = optKey opts ∧ ctx.blockAfterComplete = opts.blockAfterComplete) ∧
    (∀ st ctx t, (settleSuccess st ctx t).completed =
      if blockPositive ctx.blockAfterComplete = true then
        mapSet st.completed ctx.key t
      else st.completed) := by
  refine ⟨?_, ?_, ?_⟩
  · intro st opts now pid h
    exact execute_attached_inv h
  · intro st opts now pid ctx h
    obtain ⟨_, _, _, hctx, _⟩ := execute_launched_inv h
    rw [hctx]
    exact ⟨rfl, rfl⟩
  · intro st ctx t
    cases hb : blockPositive ctx.blockAfterComplete <;> simp [settleSuccess, hb]

/-- Witness for `c10_attach_no_mutation`: attaching to the in-flight entry
for `GET:/u:` (promise id 7) leaves the state untouched even though the
attaching call asked for a 20 ms cool-down. -/
theorem c10_attach_no_mutation_witness :
    (execute stPending7 optsBlock20 3).2 = stPending7 :=
  (c10_attach_no_mutation.1 stPending7 optsBlock20 3 7 (by decide)).1

end RequestDedup
